import Mathlib

/-!
Verification of the bit-math and memory-model core of the repository
(src/math/bit_math.h and src/include/memory/memory.h).

The machine word type uqword is a 64-bit unsigned integer.  Words are
embedded as Nat; every operation that can wrap in C carries an explicit
reduction modulo 2^64 (or 2^128 for the double-width udqword
intermediates).  The platform constants are MIN_BITS = 8 bits per byte,
sizeof(uqword) = 8 and sizeof(uintmin_t) = 1, so the word width
used by the bit-array accessors is 64.
-/

/-- Word width in bits of the bit-array accessors of bit_math.h:
sizeof(uqword) * sizeof(uintmin_t) * MIN_BITS = 8 * 1 * 8 = 64. -/
def word_bits : Nat := 64

/-- Wrapping 64-bit addition (C unsigned long long addition). -/
def addq (x y : Nat) : Nat := (x + y) % 2 ^ 64

/-- Wrapping 64-bit subtraction (C unsigned long long subtraction),
for arguments below 2^64: two's-complement wraparound. -/
def subq (x y : Nat) : Nat := (x + 2 ^ 64 - y) % 2 ^ 64

/-- Wrapping 64-bit multiplication (C unsigned long long multiplication). -/
def mulq (x y : Nat) : Nat := (x * y) % 2 ^ 64

/-- Wrapping 64-bit left shift.  The x86-64 shift instructions mask the
count to its low 6 bits, hence the count is taken modulo 64. -/
def shlq (x n : Nat) : Nat := (x <<< (n % 64)) % 2 ^ 64

/-- 64-bit right shift; the x86-64 hardware masks the count to 6 bits. -/
def shrq (x n : Nat) : Nat := x >>> (n % 64)

/-- Binary length of x computed with explicit fuel: the number of base-2
digits of x, and 0 for x = 0.  Fuel 64 makes it total on 64-bit words.
For nonzero x < 2^64 this is the value 64 - clz(x) where clz is the
count-leading-zeros operation realised by the compiler builtin that
bit_math.h uses on its primary (GNUC) branch. -/
def bitlen_aux : Nat → Nat → Nat
  | 0, _ => 0
  | fuel + 1, x => if x = 0 then 0 else bitlen_aux fuel (x / 2) + 1

/-- Model of the count-leading-zeros compiler builtin on a 64-bit word
(__builtin_clzll); its C semantics is only defined for nonzero input. -/
def clz64 (x : Nat) : Nat := 64 - bitlen_aux 64 x

/-- sigbits from bit_math.h, GNUC branch:
bitwidth(uqword) - __builtin_clzll(bit_string | 1ull). -/
def sigbits (x : Nat) : Nat := 64 - clz64 (x ||| 1)

/-- log2i from bit_math.h: sigbits(bit_string) - 1ull. -/
def log2i (x : Nat) : Nat := sigbits x - 1

/-- Loop body shared by the generic (non-x86, non-ARM) fallbacks of
cntlz, cnttz and ones in bit_math.h: starting at bit position i of y,
count consecutive set bits while the loop condition holds; fuel is the
number of loop indices left before i reaches the 64-bit width bound. -/
def ones_run (y : Nat) : Nat → Nat → Nat
  | 0, _ => 0
  | fuel + 1, i => if (y >>> i) &&& 1 = 1 then ones_run y fuel (i + 1) + 1 else 0

/-- cntlz from bit_math.h, generic fallback branch: complements the
64-bit word, then scans from i = bitwidth - 1 = 63 while i < 64, so the
loop examines exactly one bit position before i reaches 64. -/
def cntlz (x : Nat) : Nat := ones_run (2 ^ 64 - 1 - x % 2 ^ 64) 1 63

/-- cnttz from bit_math.h, generic fallback branch: complements the
64-bit word, then counts consecutive set bits from i = 0 while i < 64. -/
def cnttz (x : Nat) : Nat := ones_run (2 ^ 64 - 1 - x % 2 ^ 64) 64 0

/-- shift macro from bit_math.h: the value itself for a zero shift,
a left shift for a positive count and a right shift for a negative
count.  For a negative count the C expression is value >> a with a
negative right operand, which is undefined behavior in C; the x86-64
shift instructions mask the count to its low 6 bits, which is the
behavior mirrored here. -/
def shift_m (value : Nat) (a : Int) : Nat :=
  if a = 0 then value
  else if a < 0 then value >>> (a % 64).toNat
  else (value <<< (a.toNat % 64)) % 2 ^ 64

/-- Final correction loop of umodq: while (a >= b) a -= b.  For b ≥ 1
the value a strictly decreases each iteration, so a itself bounds the
iteration count and is used as fuel. -/
def sub_loop : Nat → Nat → Nat → Nat
  | 0, a, _ => a
  | fuel + 1, a, b => if b ≤ a then sub_loop fuel (a - b) b else a

/-- umodq from bit_math.h.  Returns 0 for b = 0; otherwise shifts a by
sigbits(a) - sigbits(b) via the shift macro, computes
a2 = a >> (log2i(b)+1), b2 = (udqword)(1 << (log2i(b)+1)) - b truncated
back to uqword, masks a to its low log2i(b)+1 bits, accumulates
a + b2 * a2 in uqword arithmetic, and finishes with the subtraction
loop.  The 1 << (log2i(b)+1) shifts are uqword shifts whose count the
hardware masks modulo 64. -/
def umodq (a b : Nat) : Nat :=
  if b = 0 then 0
  else
    let a1 := shift_m a ((sigbits a : Int) - (sigbits b : Int))
    let k := log2i b
    let a2 := shrq a1 (k + 1)
    let b2 := (shlq 1 (k + 1) + 2 ^ 128 - b) % 2 ^ 128 % 2 ^ 64
    let msk := (shlq 1 (k + 1) + 2 ^ 64 - 1) % 2 ^ 64
    let a3 := a1 &&& msk
    let a4 := (a3 + b2 * a2) % 2 ^ 64
    sub_loop a4 a4 b

/-- bin_index from bit_math.h: extracts the side bit, shifts the
address right by one to obtain the path, returns the side for paths 0
and 1, and otherwise evaluates
(2 << address_bits) - 2 + address - side * (1 << address_bits)
in uqword arithmetic, left to right, with address_bits = log2i(path). -/
def bin_index (address : Nat) : Nat :=
  if address >>> 1 = 0 then address &&& 1
  else if address >>> 1 = 1 then address &&& 1
  else
    subq (addq (subq (shlq 2 (log2i (address >>> 1))) 2) (address >>> 1))
      (mulq (address &&& 1) (shlq 1 (log2i (address >>> 1))))

/-- Depth measure of a logical tree address used by the specification:
the binary length of its path, the bits of the address above the side
bit.  Path 0 has depth 0; a path p ≥ 1 has depth ⌊log2 p⌋ + 1. -/
def tree_depth (address : Nat) : Nat := bitlen_aux 64 (address >>> 1)

/-- in_buffer from bit_math.h: whether min <= value < max. -/
def in_buffer (mi ma value : Nat) : Bool :=
  decide (mi ≤ value) && decide (value < ma)

/-- get_bita from bit_math.h.  The bit array is a pointer to words,
modelled as a map from word index to word value; words is the word
count of the array.  Computes the word index bit_index / bits, guards
it with in_buffer(0, words, index) and terminates fatally (modelled as
none) when the guard fails; otherwise extracts bit bit_index % bits of
the addressed word. -/
def get_bita (bitarray : Nat → Nat) (words bit_index : Nat) : Option Nat :=
  let bits := word_bits
  let index := bit_index / bits
  if in_buffer 0 words index = false then none
  else
    let word := bitarray index
    some ((word >>> (bit_index % bits)) &&& 1)

/-- set_bita from bit_math.h.  Guards the word index like get_bita
(fatal termination modelled as none), then merges bit
bit_offset % bits of the addressed word with the low bit of value via
word ^ ((word ^ ((value & 1) << r)) & (1 << r)) and stores the word
back.  For words below 2^64 every intermediate stays below 2^64, so no
truncation arises. -/
def set_bita (bitarray : Nat → Nat) (words bit_offset value : Nat) :
    Option (Nat → Nat) :=
  let bits := word_bits
  let index := bit_offset / bits
  if in_buffer 0 words index = false then none
  else
    let word := bitarray index
    let word2 := word ^^^
      ((word ^^^ ((value &&& 1) <<< (bit_offset % bits))) &&&
        (1 <<< (bit_offset % bits)))
    some (fun i => if i = index then word2 else bitarray i)

/-- Partition record of the memory model (spec section 3): a named,
resizable region of the flat bit-addressed storage vector. -/
structure Partition where
  offset : Nat
  length : Nat
  live : Bool
deriving DecidableEq

/-- PartitionStore of the memory model (spec sections 3 and 4.4): one
bit-addressed backing vector, the current high-water mark, and the
table mapping (context, identifier) keys to partitions. -/
structure PartitionStore where
  backing : Nat → Bool
  highWater : Nat
  table : List ((Nat × Nat) × Partition)

/-- Reads one bit of the backing storage vector of a store. -/
def readBit (s : PartitionStore) (i : Nat) : Bool := s.backing i

/-- Modelled from the spec: m_resize is declared in
src/include/memory/memory.h but its implementation is not part of the
sources.  Following spec sections 4.3 and 4.4, resize looks up the
partition named (context, identifier); on a live partition it performs
copy-then-commit relocation: it reserves a fresh region of the
requested length at the high-water mark, copies the first
min(old_length, new_length) bits from the old region, zero-fills the
remainder, and then commits the new table entry.  In-place growth is
the special case in which no data moves, so the relocation path
modelled here is the general one.  Returns none when the key names no
live partition. -/
def m_resize (s : PartitionStore) (context identifier bits : Nat) :
    Option (PartitionStore × Partition) :=
  match s.table.lookup (context, identifier) with
  | none => none
  | some part =>
    if part.live then
      let newOff := s.highWater
      let copied : Nat → Bool := fun j =>
        if newOff ≤ j ∧ j < newOff + bits then
          if j - newOff < part.length then s.backing (part.offset + (j - newOff))
          else false
        else s.backing j
      let npart : Partition := ⟨newOff, bits, true⟩
      let ntable := s.table.map
        (fun e => if e.1 = (context, identifier) then (e.1, npart) else e)
      some (⟨copied, newOff + bits, ntable⟩, npart)
    else none

/-- Concrete partition used by the resize witness: 2 bits at offset 0. -/
def part0 : Partition := ⟨0, 2, true⟩

/-- Concrete store used by the resize witness: bit 0 of the backing
vector is set, and the key (1, 1) names a live 2-bit partition. -/
def store0 : PartitionStore :=
  ⟨fun j => j == 0, 2, [((1, 1), part0)]⟩

/-- C7: umodq treats a zero modulus as the documented limit convention,
returning 0 for every a, rather than faulting. -/
theorem umodq_zero_modulus : ∀ a : Nat, umodq a 0 = 0 := by
  intro a
  simp [umodq]

/-- C1 (code bug): evaluating umodq at a = 5, b = 2 follows the shift
macro's left shift (a becomes 10), yielding 0, whereas the hardware
remainder 5 % 2 is 1.  So umodq does not agree with a % b for all
b > 0. -/
theorem umodq_failing : umodq 5 2 = 0 ∧ umodq 5 2 ≠ 5 % 2 := by
  constructor
  · decide
  · decide

/-- C4 (code bug): on the generic fallback branch, the cntlz loop
starts at bit 63 and increments its index, so it inspects a single bit
and returns 1 on input 0 instead of the documented bit width 64, while
the structurally identical cnttz loop correctly returns 64 at 0. -/
theorem cnt_zero_eval : cntlz 0 = 1 ∧ cnttz 0 = 64 := by
  constructor
  · decide
  · decide

/-- C2 (counterexample): the addresses 0 and 2 are distinct, their
paths 0 and 1 both lie in [0, 2^20), yet bin_index maps both to 0, so
bin_index is not injective over all (path, side) pairs with path in
[0, 2^20). -/
theorem bin_index_inj_cex :
    bin_index 0 = bin_index 2 ∧ (0 : Nat) ≠ 2 ∧
      (0 : Nat) >>> 1 < 2 ^ 20 ∧ (2 : Nat) >>> 1 < 2 ^ 20 := by
  refine ⟨by decide, by decide, by decide, by decide⟩

/-- C3 (counterexample): address 1 has path 0 (depth 0) and offset 1,
while address 2 has path 1 (depth 1) and offset 0; both paths lie in
[0, 2^20), so an offset at depth 0 is not below all offsets at
depth 1. -/
theorem bin_index_mono_cex :
    tree_depth 1 = 0 ∧ tree_depth 2 = 0 + 1 ∧
      (1 : Nat) >>> 1 < 2 ^ 20 ∧ (2 : Nat) >>> 1 < 2 ^ 20 ∧
      ¬ bin_index 1 < bin_index 2 := by
  refine ⟨by decide, by decide, by decide, by decide, by decide⟩

theorem bitlen_aux_zero (fuel : Nat) : bitlen_aux fuel 0 = 0 := by
  cases fuel <;> simp [bitlen_aux]

theorem bitlen_aux_bounds :
    ∀ fuel x : Nat, 0 < x → x < 2 ^ fuel →
      0 < bitlen_aux fuel x ∧ 2 ^ (bitlen_aux fuel x - 1) ≤ x ∧
        x < 2 ^ bitlen_aux fuel x := by
  intro fuel
  induction fuel with
  | zero =>
    intro x hx hlt
    rw [pow_zero] at hlt
    omega
  | succ fuel ih =>
    intro x hx hlt
    have hx0 : x ≠ 0 := by omega
    rw [show bitlen_aux (fuel + 1) x = bitlen_aux fuel (x / 2) + 1 from by
      simp [bitlen_aux, hx0]]
    by_cases h1 : x = 1
    · subst h1
      simp [bitlen_aux_zero]
    · have hx2 : 2 ≤ x := by omega
      have hdiv_pos : 0 < x / 2 := Nat.div_pos hx2 (by omega)
      have hdiv_lt : x / 2 < 2 ^ fuel := by
        rw [pow_succ] at hlt
        omega
      obtain ⟨hm, hlb, hub⟩ := ih (x / 2) hdiv_pos hdiv_lt
      set m := bitlen_aux fuel (x / 2) with hm_def
      have hsplit : 2 * (x / 2) + x % 2 = x := Nat.div_add_mod x 2
      refine ⟨by omega, ?_, ?_⟩
      · have hpows : 2 ^ m = 2 * 2 ^ (m - 1) := by
          rw [← pow_succ']
          congr 1
          omega
        simp only [Nat.add_sub_cancel]
        omega
      · have hpows : 2 ^ (m + 1) = 2 * 2 ^ m := by
          rw [pow_succ]
          ring
        omega

theorem bitlen_aux_eq (x b : Nat) (hx : x < 2 ^ 64) (h1 : 2 ^ b ≤ x)
    (h2 : x < 2 ^ (b + 1)) : bitlen_aux 64 x = b + 1 := by
  have hx0 : 0 < x := Nat.lt_of_lt_of_le (Nat.two_pow_pos b) h1
  obtain ⟨hm, hlb, hub⟩ := bitlen_aux_bounds 64 x hx0 hx
  set m := bitlen_aux 64 x with hm_def
  have hbm : b < m := by
    have h := lt_of_le_of_lt h1 hub
    exact (Nat.pow_lt_pow_iff_right (by omega)).mp h
  have hmb : m - 1 < b + 1 := by
    have h := lt_of_le_of_lt hlb h2
    exact (Nat.pow_lt_pow_iff_right (by omega)).mp h
  omega

theorem lor_one (x : Nat) : x ||| 1 = 2 * (x / 2) + 1 := by
  apply Nat.eq_of_testBit_eq
  intro i
  cases i with
  | zero =>
    rw [Nat.testBit_or]
    simp [Nat.testBit_zero, Nat.mul_add_mod]
  | succ i =>
    rw [Nat.testBit_or, Nat.testBit_add_one, Nat.testBit_add_one,
      Nat.testBit_add_one, Nat.mul_add_div (by omega)]
    simp [Nat.zero_testBit]

theorem sigbits_eq (x b : Nat) (hb : b ≤ 63) (h1 : 2 ^ b ≤ x)
    (h2 : x < 2 ^ (b + 1)) : sigbits x = b + 1 := by
  have hsplit : 2 * (x / 2) + x % 2 = x := Nat.div_add_mod x 2
  have hss : 2 ^ (b + 1) = 2 * 2 ^ b := by
    rw [pow_succ]
    ring
  have hP : 0 < 2 ^ b := Nat.two_pow_pos b
  have hlb : 2 ^ b ≤ x ||| 1 := by
    rw [lor_one]
    omega
  have hub : x ||| 1 < 2 ^ (b + 1) := by
    rw [lor_one]
    omega
  have hx64 : x ||| 1 < 2 ^ 64 :=
    lt_of_lt_of_le hub (Nat.pow_le_pow_right (by omega) (by omega))
  have hbl := bitlen_aux_eq (x ||| 1) b hx64 hlb hub
  unfold sigbits clz64
  omega

/-- C5: sigbits(0) = 1, sigbits(2^k) = k + 1 for every k in [0, 63],
and sigbits(2^k - 1) = k for every k with 1 ≤ k ≤ 64. -/
theorem sigbits_claim :
    sigbits 0 = 1 ∧ (∀ k, k ≤ 63 → sigbits (2 ^ k) = k + 1) ∧
      (∀ k, 1 ≤ k → k ≤ 64 → sigbits (2 ^ k - 1) = k) := by
  refine ⟨by decide, ?_, ?_⟩
  · intro k hk
    exact sigbits_eq (2 ^ k) k hk (le_refl _) (Nat.pow_lt_pow_succ (by omega))
  · intro k hk1 hk2
    have hpow : 2 ^ k = 2 * 2 ^ (k - 1) := by
      rw [← pow_succ']
      congr 1
      omega
    have hpos := Nat.two_pow_pos (k - 1)
    have h1 : 2 ^ (k - 1) ≤ 2 ^ k - 1 := by omega
    have h2 : 2 ^ k - 1 < 2 ^ (k - 1 + 1) := by
      rw [show k - 1 + 1 = k from by omega]
      omega
    have h := sigbits_eq (2 ^ k - 1) (k - 1) (by omega) h1 h2
    rw [h]
    omega

/-- Witness for sigbits_claim, taking k = 5 and k = 6. -/
theorem sigbits_claim_w : sigbits (2 ^ 5) = 6 ∧ sigbits (2 ^ 6 - 1) = 6 :=
  ⟨sigbits_claim.2.1 5 (by omega), sigbits_claim.2.2 6 (by omega) (by omega)⟩

theorem bin_index_closed (p s b : Nat) (hs : s ≤ 1) (hp : 2 ≤ p) (hb : b ≤ 19)
    (h1 : 2 ^ b ≤ p) (h2 : p < 2 ^ (b + 1)) :
    bin_index (2 * p + s) + (2 + s * 2 ^ b) = 2 ^ (b + 1) + p := by
  have hside : (2 * p + s) &&& 1 = s := by
    rw [Nat.and_one_is_mod]
    omega
  have hpath : (2 * p + s) >>> 1 = p := by
    rw [Nat.shiftRight_eq_div_pow, pow_one]
    omega
  have hpow_le : (2 : Nat) ^ (b + 1) ≤ 2 ^ 20 :=
    Nat.pow_le_pow_right (by omega) (by omega)
  have h2064 : (2 : Nat) ^ 20 < 2 ^ 64 := by norm_num
  have hss : (2 : Nat) ^ (b + 1) = 2 * 2 ^ b := by
    rw [pow_succ]
    ring
  have hbm : b % 64 = b := Nat.mod_eq_of_lt (by omega)
  have hs2 : shlq 2 b = 2 ^ (b + 1) := by
    unfold shlq
    rw [hbm, Nat.shiftLeft_eq,
      show (2 : Nat) * 2 ^ b = 2 ^ (b + 1) from by rw [pow_succ]; ring]
    exact Nat.mod_eq_of_lt (by omega)
  have hs1 : shlq 1 b = 2 ^ b := by
    unfold shlq
    rw [hbm, Nat.shiftLeft_eq, one_mul]
    exact Nat.mod_eq_of_lt (by omega)
  unfold bin_index
  rw [hpath, hside, if_neg (by omega : ¬ p = 0), if_neg (by omega : ¬ p = 1)]
  have hlog : log2i p = b := by
    unfold log2i
    rw [sigbits_eq p b (by omega) h1 h2]
    omega
  rw [hlog, hs2, hs1]
  unfold subq addq mulq
  rcases (by omega : s = 0 ∨ s = 1) with rfl | rfl <;>
    simp only [zero_mul, one_mul] <;> norm_num <;> omega

theorem bin_index_range (a : Nat) (ha : 2 ≤ a) (hpath : a >>> 1 < 2 ^ 20) :
    2 ^ tree_depth a ≤ bin_index a + 2 ∧
      bin_index a + 2 < 2 ^ (tree_depth a + 1) := by
  have h2064 : (2 : Nat) ^ 20 < 2 ^ 64 := by norm_num
  have hdecomp : a = 2 * (a >>> 1) + (a &&& 1) := by
    rw [Nat.shiftRight_eq_div_pow, pow_one, Nat.and_one_is_mod]
    omega
  have hs1 : a &&& 1 ≤ 1 := by
    rw [Nat.and_one_is_mod]
    omega
  have hppos : 0 < a >>> 1 := by
    rw [Nat.shiftRight_eq_div_pow, pow_one]
    omega
  by_cases hp1 : a >>> 1 = 1
  · have : a = 2 ∨ a = 3 := by omega
    rcases this with rfl | rfl <;> decide
  · have hp2 : 2 ≤ a >>> 1 := by omega
    obtain ⟨hm0, hmlb, hmub⟩ :=
      bitlen_aux_bounds 64 (a >>> 1) hppos (by omega)
    have htd : tree_depth a = bitlen_aux 64 (a >>> 1) := rfl
    set n := bitlen_aux 64 (a >>> 1) with hn_def
    have hn2 : 2 ≤ n := by
      rcases (by omega : n = 1 ∨ 2 ≤ n) with h | h
      · rw [h, pow_one] at hmub
        omega
      · exact h
    have hb19 : n - 1 ≤ 19 := by
      have := (Nat.pow_lt_pow_iff_right (by omega : 1 < 2)).mp
        (lt_of_le_of_lt hmlb hpath)
      omega
    have hup : a >>> 1 < 2 ^ (n - 1 + 1) := by
      rw [show n - 1 + 1 = n from by omega]
      exact hmub
    have hcf := bin_index_closed (a >>> 1) (a &&& 1) (n - 1) hs1 hp2 hb19 hmlb hup
    rw [← hdecomp] at hcf
    rw [htd]
    have hpow2 : (2 : Nat) ^ (n - 1 + 1) = 2 ^ n := by
      congr 1
      omega
    have hQB : (2 : Nat) ^ n = 2 * 2 ^ (n - 1) := by
      rw [← pow_succ']
      congr 1
      omega
    have hQQ : (2 : Nat) ^ (n + 1) = 2 * 2 ^ n := by
      rw [pow_succ]
      ring
    rcases (by omega : a &&& 1 = 0 ∨ a &&& 1 = 1) with hA | hA <;>
      rw [hA] at hcf <;> omega

/-- C3 (amended): for every depth d with d ≥ 1, every bin_index offset
of an address at depth d is strictly below every offset at depth d + 1,
for paths in [0, 2^20); the original claim fails only at the boundary
between depth 0 and depth 1. -/
theorem bin_index_depth_monotone (a1 a2 : Nat)
    (h1 : a1 >>> 1 < 2 ^ 20) (h2 : a2 >>> 1 < 2 ^ 20)
    (hd1 : 1 ≤ tree_depth a1) (hd : tree_depth a2 = tree_depth a1 + 1) :
    bin_index a1 < bin_index a2 := by
  have ha1 : 2 ≤ a1 := by
    by_contra hc
    push_neg at hc
    interval_cases a1 <;> exact absurd hd1 (by decide)
  have ha2 : 2 ≤ a2 := by
    have hd2 : 1 ≤ tree_depth a2 := by omega
    by_contra hc
    push_neg at hc
    interval_cases a2 <;> exact absurd hd2 (by decide)
  obtain ⟨hlb1, hub1⟩ := bin_index_range a1 ha1 h1
  obtain ⟨hlb2, hub2⟩ := bin_index_range a2 ha2 h2
  rw [hd] at hlb2
  omega

/-- Witness for bin_index_depth_monotone: address 2 sits at depth 1 and
address 4 at depth 2. -/
theorem bin_index_depth_monotone_w : bin_index 2 < bin_index 4 :=
  bin_index_depth_monotone 2 4 (by decide) (by decide) (by decide) (by decide)

/-- C2 (amended): bin_index is injective over addresses whose paths lie
in [1, 2^20); injectivity fails only for the depth-0 paths, whose
addresses 0 and 1 collide with the path-1 addresses 2 and 3. -/
theorem bin_index_inj_amended (a1 a2 : Nat)
    (ha1 : 2 ≤ a1) (h1 : a1 >>> 1 < 2 ^ 20)
    (ha2 : 2 ≤ a2) (h2 : a2 >>> 1 < 2 ^ 20)
    (hne : a1 ≠ a2) : bin_index a1 ≠ bin_index a2 := by
  have h2064 : (2 : Nat) ^ 20 < 2 ^ 64 := by norm_num
  rcases Nat.lt_trichotomy (tree_depth a1) (tree_depth a2) with hlt | heq | hgt
  · obtain ⟨hlb1, hub1⟩ := bin_index_range a1 ha1 h1
    obtain ⟨hlb2, hub2⟩ := bin_index_range a2 ha2 h2
    have hstep : (2 : Nat) ^ (tree_depth a1 + 1) ≤ 2 ^ tree_depth a2 :=
      Nat.pow_le_pow_right (by omega) (by omega)
    omega
  · have hdec1 : a1 = 2 * (a1 >>> 1) + (a1 &&& 1) := by
      rw [Nat.shiftRight_eq_div_pow, pow_one, Nat.and_one_is_mod]
      omega
    have hdec2 : a2 = 2 * (a2 >>> 1) + (a2 &&& 1) := by
      rw [Nat.shiftRight_eq_div_pow, pow_one, Nat.and_one_is_mod]
      omega
    have hs1 : a1 &&& 1 ≤ 1 := by
      rw [Nat.and_one_is_mod]
      omega
    have hs2 : a2 &&& 1 ≤ 1 := by
      rw [Nat.and_one_is_mod]
      omega
    obtain ⟨hm1, hlo1, hhi1⟩ := bitlen_aux_bounds 64 (a1 >>> 1)
      (by rw [Nat.shiftRight_eq_div_pow, pow_one]; omega) (by omega)
    obtain ⟨hm2, hlo2, hhi2⟩ := bitlen_aux_bounds 64 (a2 >>> 1)
      (by rw [Nat.shiftRight_eq_div_pow, pow_one]; omega) (by omega)
    simp only [tree_depth] at heq
    set n := bitlen_aux 64 (a1 >>> 1) with hn_def
    rw [← heq] at hlo2 hhi2
    rcases (by omega : n = 1 ∨ 2 ≤ n) with hd1 | hd2
    · rw [hd1, pow_one] at hhi1 hhi2
      rw [hd1] at hlo1 hlo2
      rw [pow_zero] at hlo1 hlo2
      have : (a1 = 2 ∧ a2 = 3) ∨ (a1 = 3 ∧ a2 = 2) := by omega
      obtain ⟨rfl, rfl⟩ | ⟨rfl, rfl⟩ := this <;> decide
    · have hp1ge : 2 ≤ a1 >>> 1 := by
        have h21 : (2 : Nat) ^ 1 ≤ 2 ^ (n - 1) :=
          Nat.pow_le_pow_right (by omega) (by omega)
        rw [pow_one] at h21
        omega
      have hp2ge : 2 ≤ a2 >>> 1 := by
        have h21 : (2 : Nat) ^ 1 ≤ 2 ^ (n - 1) :=
          Nat.pow_le_pow_right (by omega) (by omega)
        rw [pow_one] at h21
        omega
      have hb19 : n - 1 ≤ 19 := by
        have := (Nat.pow_lt_pow_iff_right (by omega : 1 < 2)).mp
          (lt_of_le_of_lt hlo1 h1)
        omega
      have hup1 : a1 >>> 1 < 2 ^ (n - 1 + 1) := by
        rw [show n - 1 + 1 = n from by omega]
        exact hhi1
      have hup2 : a2 >>> 1 < 2 ^ (n - 1 + 1) := by
        rw [show n - 1 + 1 = n from by omega]
        exact hhi2
      have hcf1 := bin_index_closed (a1 >>> 1) (a1 &&& 1) (n - 1)
        hs1 hp1ge hb19 hlo1 hup1
      have hcf2 := bin_index_closed (a2 >>> 1) (a2 &&& 1) (n - 1)
        hs2 hp2ge hb19 hlo2 hup2
      rw [← hdec1] at hcf1
      rw [← hdec2] at hcf2
      have hpow2 : (2 : Nat) ^ (n - 1 + 1) = 2 ^ n := by
        congr 1
        omega
      have hQB : (2 : Nat) ^ n = 2 * 2 ^ (n - 1) := by
        rw [← pow_succ']
        congr 1
        omega
      intro hbe
      rcases (by omega : a1 &&& 1 = 0 ∨ a1 &&& 1 = 1) with hA | hA <;>
        rcases (by omega : a2 &&& 1 = 0 ∨ a2 &&& 1 = 1) with hB | hB <;>
          rw [hA] at hcf1 hdec1 <;> rw [hB] at hcf2 hdec2 <;> omega
  · obtain ⟨hlb1, hub1⟩ := bin_index_range a1 ha1 h1
    obtain ⟨hlb2, hub2⟩ := bin_index_range a2 ha2 h2
    have hstep : (2 : Nat) ^ (tree_depth a2 + 1) ≤ 2 ^ tree_depth a1 :=
      Nat.pow_le_pow_right (by omega) (by omega)
    omega

/-- Witness for bin_index_inj_amended: the sibling addresses 2 and 3
receive distinct offsets. -/
theorem bin_index_inj_amended_w : bin_index 2 ≠ bin_index 3 :=
  bin_index_inj_amended 2 3 (by decide) (by decide) (by decide) (by decide)
    (by decide)

theorem set_word_testBit (w v r k : Nat) :
    Nat.testBit (w ^^^ ((w ^^^ ((v &&& 1) <<< r)) &&& (1 <<< r))) k =
      if k = r then Nat.testBit v 0 else Nat.testBit w k := by
  have h1 : (1 : Nat) <<< r = 2 ^ r := by rw [Nat.shiftLeft_eq, one_mul]
  have hv1 : Nat.testBit (v &&& 1) 0 = Nat.testBit v 0 := by
    simp [Nat.testBit_and, Nat.testBit_one_zero]
  by_cases hk : k = r
  · subst hk
    rw [if_pos rfl, h1, Nat.testBit_xor, Nat.testBit_and, Nat.testBit_xor,
      Nat.testBit_two_pow, Nat.testBit_shiftLeft]
    simp [hv1]
  · rw [if_neg hk, h1, Nat.testBit_xor, Nat.testBit_and, Nat.testBit_xor,
      Nat.testBit_two_pow, decide_eq_false (by omega : ¬ r = k)]
    simp

theorem shiftRight_and_one (x r : Nat) :
    (x >>> r) &&& 1 = if Nat.testBit x r then 1 else 0 := by
  rw [Nat.and_one_is_mod,
    show Nat.testBit x r = Nat.testBit (x >>> r) 0 from by
      rw [Nat.testBit_shiftRight, Nat.add_zero],
    Nat.testBit_zero]
  rcases Nat.mod_two_eq_zero_or_one (x >>> r) with h | h <;> rw [h] <;> simp

theorem set_word_get (w v r : Nat) (hv : v = 0 ∨ v = 1) :
    ((w ^^^ ((w ^^^ ((v &&& 1) <<< r)) &&& (1 <<< r))) >>> r) &&& 1 = v := by
  rw [shiftRight_and_one, set_word_testBit, if_pos rfl]
  rcases hv with rfl | rfl <;> simp [Nat.zero_testBit, Nat.testBit_one_zero]

/-- C8: for every live bit array, every in-range bit index and every
bit value v in 0 or 1, set_bita followed by get_bita at the same index
returns v. -/
theorem set_get_roundtrip (arr : Nat → Nat) (words i v : Nat)
    (hv : v = 0 ∨ v = 1) (hi : i < words * word_bits) :
    (set_bita arr words i v).bind (fun arr2 => get_bita arr2 words i) =
      some v := by
  have hidx : i / word_bits < words := by
    rw [Nat.div_lt_iff_lt_mul (by decide : 0 < word_bits)]
    omega
  have hguard : in_buffer 0 words (i / word_bits) = true := by
    unfold in_buffer
    simp [hidx]
  have hcond : (in_buffer 0 words (i / word_bits) = false) = False := by
    simp [hguard]
  have key := set_word_get (arr (i / word_bits)) v (i % word_bits) hv
  simp only [set_bita, get_bita, hcond, if_false, Option.some_bind]
  rw [if_pos trivial, key]

/-- Witness for set_get_roundtrip: an all-zero one-word array, bit 3
set to 1 and read back. -/
theorem set_get_roundtrip_w :
    (set_bita (fun _ => 0) 1 3 1).bind (fun arr2 => get_bita arr2 1 3) =
      some 1 :=
  set_get_roundtrip (fun _ => 0) 1 3 1 (Or.inr rfl) (by decide)

/-- C9: get_bita and set_bita take the fatal branch exactly when the
bit index is at least words times the word width; every in-range index
passes the guard and the access completes normally. -/
theorem bita_fatal_iff (arr : Nat → Nat) (words i v : Nat) :
    (get_bita arr words i = none ↔ words * word_bits ≤ i) ∧
      (set_bita arr words i v = none ↔ words * word_bits ≤ i) := by
  have hiff : (in_buffer 0 words (i / word_bits) = false) ↔
      words * word_bits ≤ i := by
    unfold in_buffer
    rcases Nat.lt_or_ge i (words * word_bits) with h | h
    · have hx : i / word_bits < words := by
        rw [Nat.div_lt_iff_lt_mul (by decide : 0 < word_bits)]
        omega
      simp [hx]
      omega
    · have hx : ¬ i / word_bits < words := by
        rw [Nat.div_lt_iff_lt_mul (by decide : 0 < word_bits)]
        omega
      simp [hx]
      omega
  have hget : get_bita arr words i = none ↔
      in_buffer 0 words (i / word_bits) = false := by
    unfold get_bita
    by_cases hg : in_buffer 0 words (i / word_bits) = false <;> simp [hg]
  have hset : set_bita arr words i v = none ↔
      in_buffer 0 words (i / word_bits) = false := by
    unfold set_bita
    by_cases hg : in_buffer 0 words (i / word_bits) = false <;> simp [hg]
  exact ⟨hget.trans hiff, hset.trans hiff⟩

/-- C10: set_bita touches at most the addressed bit: every word other
than word i / word_width is unchanged, and in the addressed word every
bit position other than i % word_width keeps its prior value. -/
theorem set_bita_frame (arr : Nat → Nat) (words i v j k : Nat)
    (hi : i < words * word_bits) (hj : j ≠ i / word_bits)
    (hk : k ≠ i % word_bits) :
    (set_bita arr words i v).map (fun arr2 => arr2 j) = some (arr j) ∧
      (set_bita arr words i v).map
          (fun arr2 => Nat.testBit (arr2 (i / word_bits)) k) =
        some (Nat.testBit (arr (i / word_bits)) k) := by
  have hidx : i / word_bits < words := by
    rw [Nat.div_lt_iff_lt_mul (by decide : 0 < word_bits)]
    omega
  have hguard : in_buffer 0 words (i / word_bits) = true := by
    unfold in_buffer
    simp [hidx]
  have hcond : (in_buffer 0 words (i / word_bits) = false) = False := by
    simp [hguard]
  have key := set_word_testBit (arr (i / word_bits)) v (i % word_bits) k
  rw [if_neg hk] at key
  constructor
  · simp only [set_bita, hcond, if_false, Option.map_some']
    rw [if_neg hj]
  · simp only [set_bita, hcond, if_false, Option.map_some']
    rw [if_pos trivial, key]

/-- Witness for set_bita_frame: writing bit 0 of a one-word array
leaves word 3 and bit 2 of word 0 unchanged. -/
theorem set_bita_frame_w :
    (set_bita (fun _ => 5) 1 0 1).map (fun arr2 => arr2 3) = some 5 ∧
      (set_bita (fun _ => 5) 1 0 1).map
          (fun arr2 => Nat.testBit (arr2 (0 / word_bits)) 2) =
        some (Nat.testBit 5 2) :=
  set_bita_frame (fun _ => 5) 1 0 1 3 2 (by decide) (by decide) (by decide)

/-- C6: resizing a live partition preserves the stored content over the
first min(old_length, new_length) bits exactly: bit i of the resized
partition equals bit i of the partition before the resize, for every
i below both lengths. -/
theorem m_resize_preserves (s : PartitionStore) (c ident bits : Nat)
    (p : Partition) (i : Nat)
    (hlook : s.table.lookup (c, ident) = some p)
    (hlive : p.live = true)
    (hi : i < min p.length bits) :
    (m_resize s c ident bits).map (fun r => readBit r.1 (r.2.offset + i)) =
      some (readBit s (p.offset + i)) := by
  unfold m_resize
  rw [hlook]
  simp only [hlive, if_true, Option.map_some']
  simp only [readBit]
  rw [if_pos (by omega : s.highWater ≤ s.highWater + i ∧
    s.highWater + i < s.highWater + bits)]
  rw [if_pos (by omega : s.highWater + i - s.highWater < p.length)]
  rw [show s.highWater + i - s.highWater = i from by omega]

/-- Witness for m_resize_preserves: growing the 2-bit partition of
store0 to 3 bits keeps bit 0 readable and unchanged. -/
theorem m_resize_preserves_w :
    (m_resize store0 1 1 3).map (fun r => readBit r.1 (r.2.offset + 0)) =
      some (readBit store0 (part0.offset + 0)) :=
  m_resize_preserves store0 1 1 3 part0 0 (by decide) (by decide) (by decide)
